import Mathlib

/-!
Verification of the index recommendation engine in `src/main.py` of the
`mindexer` repository: query model, candidate generation, cost-based
scoring of (query, candidate) pairs, estimate memoization and the greedy
diminishing-returns selector.

The scoring pipeline and the greedy selector are embedded directly from
`src/main.py`.  The `Query` operations (`index_intersect`, `is_covered`,
`is_subset`, `can_use_sort`, `from_mql`) live in `mindexer.utils.query`,
which is not part of the sources here; those definitions are modelled from
the specification and are marked as such in their doc comments.
-/

set_option autoImplicit false

namespace Mindexer

/-- Kind of a filter predicate, modelled from the spec: predicates are a
closed tagged-variant type (equality, range); unsupported shapes never
reach a constructed `Query` (they fail validation in `from_mql`). -/
inductive PredKind where
  | eq
  | range
  deriving DecidableEq, Repr

/-- Modelled from the spec: the normalized query value built by
`mindexer.utils.query.Query` (absent from `src/`): an ordered predicate
list (field, kind), an optional sort key sequence (empty = no sort), a
projection field sequence (empty = all fields needed), and an optional
positive result limit. Structural equality is the cache/dedup key. -/
structure Query where
  predicates : List (String × PredKind)
  sort : List String
  projection : List String
  limit : Option Nat
  deriving DecidableEq, Repr

/-- First predicate kind registered on field `f`, if any. -/
def predKindOn (preds : List (String × PredKind)) (f : String) : Option PredKind :=
  match preds with
  | [] => none
  | (g, pk) :: rest => if g = f then some pk else predKindOn rest f

/-- Modelled from the spec: the predicate list of `q.index_intersect(k)`
(`mindexer.utils.query`, absent from `src/`): the longest usable prefix of
the key pattern `k` — an equality predicate on a prefix field continues the
match, a range predicate matches but terminates it, and the first field
with no matching predicate ends the prefix. -/
def intersectPreds (q : Query) : List String → List (String × PredKind)
  | [] => []
  | f :: rest =>
    match predKindOn q.predicates f with
    | some PredKind.eq => (f, PredKind.eq) :: intersectPreds q rest
    | some PredKind.range => [(f, PredKind.range)]
    | none => []

/-- Modelled from the spec: `q.index_intersect(k)` returns the sub-query
carrying only the matched predicates (no sort, projection or limit). -/
def Query.index_intersect (q : Query) (k : List String) : Query :=
  { predicates := intersectPreds q k, sort := [], projection := [], limit := none }

/-- Set of field names referenced by the predicates, modelled from the
spec (`q.fields` of `mindexer.utils.query`, absent from `src/`). -/
def Query.fields (q : Query) : List String :=
  (q.predicates.map Prod.fst).dedup

/-- Modelled from the spec: `q.is_covered(k)` holds iff every field needed
to answer `q` (predicate, sort and projection fields) is present in `k`;
an empty projection means all document fields are needed, which a finite
key pattern cannot supply, so the query is not covered. -/
def Query.is_covered (q : Query) (k : List String) : Bool :=
  !q.projection.isEmpty &&
    (q.fields ++ q.sort ++ q.projection).all fun f => k.contains f

/-- Modelled from the spec: `q.is_subset(k)` holds iff every predicate
field of `q` appears in `k`'s field set, ignoring order. -/
def Query.is_subset (q : Query) (k : List String) : Bool :=
  q.fields.all fun f => k.contains f

/-- Modelled from the spec: `q.can_use_sort(k)` holds iff, after dropping
the leading equality-predicate prefix of `k` that filters `q`, the
remaining suffix of `k` is exactly the requested sort key sequence,
forward or fully reversed; a query without a requested sort has no
in-memory sort to avoid. -/
def Query.can_use_sort (q : Query) (k : List String) : Bool :=
  !q.sort.isEmpty &&
    (let rest := k.dropWhile fun f => predKindOn q.predicates f == some PredKind.eq
     rest == q.sort || rest == q.sort.reverse)

/-- `MAX_INDEX_FIELDS` from `src/main.py`. -/
def MAX_INDEX_FIELDS : Nat := 3

/-- The three cost-model parameters of `src/main.py` (`IXSCAN_COST`,
`FETCH_COST`, `SORT_COST`), kept abstract so properties can be stated for
all parameter values. -/
structure CostParams (α : Type) where
  ixscanCost : α
  fetchCost : α
  sortCost : α

/-- `IXSCAN_COST = 0.5` from `src/main.py`. -/
def IXSCAN_COST (α : Type) [DivisionRing α] : α := 1 / 2

/-- `FETCH_COST = 10` from `src/main.py`. -/
def FETCH_COST (α : Type) [DivisionRing α] : α := 10

/-- `SORT_COST = 10` from `src/main.py`. -/
def SORT_COST (α : Type) [DivisionRing α] : α := 10

/-- The concrete cost-model constants of `src/main.py`. -/
def defaultCosts (α : Type) [DivisionRing α] : CostParams α :=
  { ixscanCost := IXSCAN_COST α, fetchCost := FETCH_COST α, sortCost := SORT_COST α }

/-- Line 145 of `src/main.py`: benefit of an index over a collection scan,
`benefit = total_cardinality * 1.0 - est * cost`. -/
def benefitCore {α : Type} [Ring α] (totalCount est cost : α) : α :=
  totalCount * 1 - est * cost

/-- Lines 126-145 of `src/main.py`: unit cost is `IXSCAN_COST` for a
covered query and `FETCH_COST` otherwise, fed into `benefitCore`. -/
def filterBenefit {α : Type} [Ring α] (cp : CostParams α) (covered : Bool)
    (totalCount est : α) : α :=
  benefitCore totalCount est (if covered then cp.ixscanCost else cp.fetchCost)

/-- Lines 140-141 of `src/main.py`: if the query has a limit and all its
filter fields are in the candidate, the estimate is capped at the limit;
otherwise the raw estimate is used. -/
def cappedEst {α : Type} [LinearOrderedField α] (q : Query) (k : List String)
    (est : α) : α :=
  match q.limit with
  | some l => if q.is_subset k then min (l : α) est else est
  | none => est

/-- Lines 148-151 of `src/main.py`: sort-avoidance bonus
`max(1, est) * log2(max(1, est)) * SORT_COST`; the base-2 logarithm of the
floating-point code is passed in as a function. -/
def sortBonus {α : Type} [LinearOrderedRing α] (cp : CostParams α) (log2 : α → α) (est : α) : α :=
  max 1 est * log2 (max 1 est) * cp.sortCost

/-- Lines 120-153 of `src/main.py`: the benefit scored for one
(query, candidate) pair. A candidate whose intersection with the query has
no predicates contributes no filtering benefit; otherwise the capped
estimate times the unit cost is compared against a full collection scan;
finally, if the index can serve the requested sort, the sort-avoidance
bonus is added (the code adds it outside the zero-predicate branch). -/
def scoreFor {α : Type} [LinearOrderedField α] (cp : CostParams α) (log2 : α → α)
    (estimate : Query → α) (totalCount : α) (q : Query) (k : List String) : α :=
  let fetchQ := q.index_intersect k
  let base :=
    if fetchQ.predicates.length = 0 then 0
    else filterBenefit cp (q.is_covered k) totalCount (cappedEst q k (estimate fetchQ))
  if q.can_use_sort k then base + sortBonus cp log2 (estimate q) else base

/-- All ordered selections of `r` distinct positions of `l`, mirroring
`itertools.permutations(l, r)` as used at line 86 of `src/main.py`: every
permutation of every length-`r` subsequence (the insertion-based
`List.permutations'` enumerates exactly the permutations of a list). -/
def kpermutations (r : Nat) (l : List String) : List (List String) :=
  (l.sublistsLen r).flatMap List.permutations'

/-- Lines 81-87 of `src/main.py`: the deduplicated candidate set, the
union over every workload query of all ordered permutations of size
`i + 1` of its predicate fields for `i < min(|fields|, MAX_INDEX_FIELDS)`. -/
def genCandidates (workload : List Query) : List (List String) :=
  (workload.flatMap fun q =>
    (List.range (min q.fields.length MAX_INDEX_FIELDS)).flatMap fun i =>
      kpermutations (i + 1) q.fields).dedup

/-- Lookup in the estimate cache dictionary, keyed by structural `Query`
equality as in the `query in estimate_cache` test of `src/main.py`. -/
def cacheLookup (q : Query) : List (Query × ℚ) → Option ℚ
  | [] => none
  | (q', v) :: rest => if q' = q then some v else cacheLookup q rest

/-- Lines 97-105 of `src/main.py` (`get_estimate`): answer from the cache
when present, otherwise invoke the oracle and record the result. Returns
the estimate, the new cache, and whether the oracle was invoked. -/
def getEstimate (oracle : Query → ℚ) (cache : List (Query × ℚ)) (q : Query) :
    ℚ × List (Query × ℚ) × Bool :=
  match cacheLookup q cache with
  | some v => (v, cache, false)
  | none => (oracle q, (q, oracle q) :: cache, true)

/-- A sequence of `get_estimate` requests as issued by one scoring pass,
threading the cache; returns the answers in order and the list of queries
on which the oracle was actually invoked, in invocation order. -/
def runEstimates (oracle : Query → ℚ) (cache : List (Query × ℚ)) :
    List Query → List ℚ × List Query
  | [] => ([], [])
  | q :: qs =>
    let r := getEstimate oracle cache q
    let rest := runEstimates oracle r.2.1 qs
    (r.1 :: rest.1, (if r.2.2 then [q] else []) ++ rest.2)

/-- Cache soundness invariant: every cached value is what the oracle
returns for its key. -/
def goodCache (oracle : Query → ℚ) (cache : List (Query × ℚ)) : Prop :=
  ∀ p ∈ cache, p.2 = oracle p.1

/-- Raw predicate shape inside a profiled filter document, modelled from
the spec: equality, range, or an unsupported shape that fails validation. -/
inductive RawPred where
  | eqP
  | rangeP
  | unsupP
  deriving DecidableEq, Repr

/-- Mapping of a raw filter entry to a predicate kind; unsupported shapes
yield a validation failure (`none`), modelled from the spec. -/
def RawPred.toKind : RawPred → Option PredKind
  | RawPred.eqP => some PredKind.eq
  | RawPred.rangeP => some PredKind.range
  | RawPred.unsupP => none

/-- One record of the profiling source: the filter document plus the
optional limit, sort key order and projection field set attached at lines
51-56 of `src/main.py` (absence encoded as `none` / `[]`). -/
structure ProfileDoc where
  filterDoc : List (String × RawPred)
  limit : Option Nat
  sort : List String
  projection : List String
  deriving DecidableEq, Repr

/-- Modelled from the spec: `Query.from_mql` (`mindexer.utils.query`,
absent from `src/`) builds a `Query` from a filter document and raises a
validation failure — here `none` — on any malformed/unsupported predicate
shape. -/
def Query.from_mql (filterDoc : List (String × RawPred)) : Option Query :=
  match filterDoc.mapM (fun p => (RawPred.toKind p.2).map fun pk => (p.1, pk)) with
  | none => none
  | some preds => some { predicates := preds, sort := [], projection := [], limit := none }

/-- Lines 49-58 of `src/main.py`: construct the `Query` for one profile
record and attach its limit, sort and projection. -/
def parseDoc (d : ProfileDoc) : Option Query :=
  match Query.from_mql d.filterDoc with
  | none => none
  | some q => some { q with limit := d.limit, sort := d.sort, projection := d.projection }

/-- Lines 48-60 of `src/main.py`: build the workload by appending each
successfully constructed query in input order and skipping records whose
construction fails. -/
def buildWorkload : List ProfileDoc → List Query
  | [] => []
  | d :: ds =>
    match parseDoc d with
    | some q => q :: buildWorkload ds
    | none => buildWorkload ds

/-- State of the greedy selector of lines 172-213 of `src/main.py`: the
candidate columns still in the working matrix, the selected candidates in
selection order (`estimator_indexes`), and the working matrix `W` giving
each (query row, candidate column) its current score. -/
structure GreedyState (κ : Type) where
  remaining : List κ
  selected : List κ
  W : Nat → κ → ℚ

/-- Line 178 of `src/main.py`: the working matrix has no positive entry
left, over the remaining columns and the `m` workload rows. -/
def allNonPos {κ : Type} (m : Nat) (s : GreedyState κ) : Bool :=
  s.remaining.all fun c => (List.range m).all fun qi => decide (s.W qi c ≤ 0)

/-- Sum of one candidate column over all `m` query rows
(`idx_scores.sum(axis=0)` at line 182 of `src/main.py`). -/
def colSum {κ : Type} (scores : Nat → κ → ℚ) (m : Nat) (c : κ) : ℚ :=
  ((List.range m).map fun qi => scores qi c).sum

/-- First element of `c0 :: cs` attaining the maximal key `f`, the column
picked at lines 182-183 of `src/main.py`. -/
def pickMax {κ : Type} (f : κ → ℚ) (c0 : κ) (cs : List κ) : κ :=
  cs.foldl (fun b c => if f b < f c then c else b) c0

/-- Line 203 of `src/main.py`: the maximum of a nonempty score list. -/
def listMax (e : ℚ) (es : List ℚ) : ℚ :=
  es.foldl max e

/-- Lines 197-199 of `src/main.py`: the original (static) scores of the
already-selected candidates for query row `qi`, with zeros removed. -/
def existingScores {κ : Type} (scores : Nat → κ → ℚ) (selected : List κ) (qi : Nat) :
    List ℚ :=
  (selected.map fun c => scores qi c).filter fun v => decide (v ≠ 0)

/-- Lines 194-213 of `src/main.py`, the update step: a row with no
non-zero score among the selected candidates is left unchanged; any other
row is recomputed from the original scores as
`max(0, scores[qi][c] - best_existing)`. -/
def newW {κ : Type} (scores : Nat → κ → ℚ) (selected : List κ) (W : Nat → κ → ℚ) :
    Nat → κ → ℚ :=
  fun qi =>
    match existingScores scores selected qi with
    | [] => W qi
    | e :: es => fun c => max 0 (scores qi c - listMax e es)

/-- One iteration of the greedy loop (lines 175-213 of `src/main.py`):
terminate (`none`) when no positive score remains or no column remains;
otherwise pick the remaining column whose sum over the working matrix
`s.W` is maximal (`idx_scores.sum(axis=0)`), drop it from the working
matrix, append it to the selection, and run the update step. -/
def step {κ : Type} [DecidableEq κ] (scores : Nat → κ → ℚ) (m : Nat)
    (s : GreedyState κ) : Option (GreedyState κ) :=
  if allNonPos m s then none
  else
    match s.remaining with
    | [] => none
    | c0 :: cs =>
      let idx := pickMax (colSum s.W m) c0 cs
      some { remaining := s.remaining.erase idx
           , selected := s.selected ++ [idx]
           , W := newW scores (s.selected ++ [idx]) s.W }

/-- Iterate `step` at most `n` times, stopping at the first terminal
state (the `for i in range(len(candidates))` loop with its `break`). -/
def greedyRun {κ : Type} [DecidableEq κ] (scores : Nat → κ → ℚ) (m : Nat) :
    Nat → GreedyState κ → GreedyState κ
  | 0, s => s
  | n + 1, s =>
    match step scores m s with
    | none => s
    | some s' => greedyRun scores m n s'

/-- Lines 172-213 of `src/main.py`: the full greedy selection over `m`
workload rows and the candidate columns `cands`, starting from a working
copy of the score matrix; returns `estimator_indexes`. -/
def greedy {κ : Type} [DecidableEq κ] (scores : Nat → κ → ℚ) (m : Nat)
    (cands : List κ) : List κ :=
  (greedyRun scores m cands.length { remaining := cands, selected := [], W := scores }).selected

/-- Example query filtering on field `a` with a single equality predicate,
no sort, no projection, no limit. -/
def qA : Query :=
  { predicates := [("a", PredKind.eq)], sort := [], projection := [], limit := none }

/-- Example query filtering on field `b` with a single equality predicate. -/
def qB : Query :=
  { predicates := [("b", PredKind.eq)], sort := [], projection := [], limit := none }

/-- Example query with equality predicates on `a` and `b`. -/
def qAB : Query :=
  { predicates := [("a", PredKind.eq), ("b", PredKind.eq)], sort := [],
    projection := [], limit := none }

/-- Example query filtering on `a` and requesting results sorted by `b`. -/
def qASortB : Query :=
  { predicates := [("a", PredKind.eq)], sort := ["b"], projection := [], limit := none }

/-- Example query filtering on `a` with a result limit of 3. -/
def qALim : Query :=
  { predicates := [("a", PredKind.eq)], sort := [], projection := [], limit := some 3 }

/-- Example two-query workload. -/
def workloadEx : List Query := [qA, qB]

/-- Concrete oracle for the example workload: the one-predicate sub-query
on `a` matches an estimated 1/2 sampled documents, every other sub-query
3/2 (the oracle is an external collaborator; any non-negative function is
a valid one). -/
def estimateEx : Query → ℚ := fun q => if q = qA then 1 / 2 else 3 / 2

/-- Rational stand-in for the base-2 logarithm in runs where no query has
a requested sort, so the sort bonus — the only consumer of the logarithm —
is never evaluated and its value is irrelevant. -/
def log2Triv : ℚ → ℚ := fun _ => 0

/-- Candidate columns generated from the example workload. -/
def candsEx : List (List String) := genCandidates workloadEx

/-- Score matrix of the example pipeline: total cardinality 10, default
cost constants, example oracle. -/
def scoresEx : Nat → List String → ℚ := fun qi c =>
  scoreFor (defaultCosts ℚ) log2Triv estimateEx 10 (workloadEx.getD qi qA) c

/-- Initial greedy state of the example pipeline: all candidate columns
remain and the working matrix is a copy of the score matrix. -/
def exInit : GreedyState (List String) :=
  { remaining := candsEx, selected := [], W := scoresEx }

/-- Greedy state of the example pipeline after its first iteration. -/
def exState1 : GreedyState (List String) :=
  (step scoresEx 2 exInit).getD exInit

/-! ### Helper lemmas about the greedy selector -/

theorem pickMax_mem {κ : Type} (f : κ → ℚ) (cs : List κ) (c0 : κ) :
    pickMax f c0 cs ∈ c0 :: cs := by
  induction cs generalizing c0 with
  | nil => simp [pickMax]
  | cons c cs ih =>
    have h := ih (if f c0 < f c then c else c0)
    simp only [pickMax, List.foldl_cons] at h ⊢
    rcases List.mem_cons.1 h with h1 | h1
    · rw [h1]
      by_cases hc : f c0 < f c <;> simp [hc]
    · simp [h1]

theorem le_pickMax {κ : Type} (f : κ → ℚ) (cs : List κ) (c0 : κ) :
    ∀ x ∈ c0 :: cs, f x ≤ f (pickMax f c0 cs) := by
  induction cs generalizing c0 with
  | nil =>
    intro x hx
    rw [List.mem_singleton] at hx
    rw [hx]
    simp [pickMax]
  | cons c cs ih =>
    intro x hx
    have hpick : pickMax f c0 (c :: cs) = pickMax f (if f c0 < f c then c else c0) cs := by
      simp [pickMax]
    rw [hpick]
    have hhead := ih (if f c0 < f c then c else c0) _ (List.mem_cons_self _ _)
    rcases List.mem_cons.1 hx with h1 | h1
    · subst h1
      refine le_trans ?_ hhead
      by_cases hc : f x < f c <;> simp [hc]
      exact le_of_lt hc
    · rcases List.mem_cons.1 h1 with h2 | h2
      · subst h2
        refine le_trans ?_ hhead
        by_cases hc : f c0 < f x <;> simp [hc]
        exact le_of_not_lt hc
      · exact ih _ _ (List.mem_cons_of_mem _ h2)

theorem listMax_mem (e : ℚ) (es : List ℚ) : listMax e es ∈ e :: es := by
  induction es generalizing e with
  | nil => simp [listMax]
  | cons a es ih =>
    have h := ih (max e a)
    simp only [listMax, List.foldl_cons] at h ⊢
    rcases List.mem_cons.1 h with h1 | h1
    · rw [h1]
      rcases max_choice e a with h2 | h2 <;> simp [h2]
    · simp [h1]

theorem le_listMax (e : ℚ) (es : List ℚ) : ∀ x ∈ e :: es, x ≤ listMax e es := by
  induction es generalizing e with
  | nil =>
    intro x hx
    rw [List.mem_singleton] at hx
    rw [hx]
    simp [listMax]
  | cons a es ih =>
    intro x hx
    have hM : listMax e (a :: es) = listMax (max e a) es := by
      simp [listMax]
    rw [hM]
    have hhead := ih (max e a) _ (List.mem_cons_self _ _)
    rcases List.mem_cons.1 hx with h1 | h1
    · subst h1
      exact le_trans (le_max_left _ _) hhead
    · rcases List.mem_cons.1 h1 with h2 | h2
      · subst h2
        exact le_trans (le_max_right _ _) hhead
      · exact ih _ _ (List.mem_cons_of_mem _ h2)

theorem allNonPos_iff {κ : Type} (m : Nat) (s : GreedyState κ) :
    allNonPos m s = true ↔ ∀ c ∈ s.remaining, ∀ qi < m, s.W qi c ≤ 0 := by
  simp [allNonPos]

theorem step_none_iff {κ : Type} [DecidableEq κ] (scores : Nat → κ → ℚ) (m : Nat)
    (s : GreedyState κ) :
    step scores m s = none ↔ allNonPos m s = true ∨ s.remaining = [] := by
  rcases hA : allNonPos m s with _ | _
  · cases hr : s.remaining with
    | nil => simp [step, hA, hr]
    | cons c0 cs => simp [step, hA, hr]
  · simp [step, hA]

theorem step_some_eq {κ : Type} [DecidableEq κ] {scores : Nat → κ → ℚ} {m : Nat}
    {s s' : GreedyState κ} (h : step scores m s = some s') :
    ∃ c0 cs, s.remaining = c0 :: cs ∧ allNonPos m s = false ∧
      s' = { remaining := s.remaining.erase (pickMax (colSum s.W m) c0 cs)
           , selected := s.selected ++ [pickMax (colSum s.W m) c0 cs]
           , W := newW scores (s.selected ++ [pickMax (colSum s.W m) c0 cs]) s.W } := by
  rcases hA : allNonPos m s with _ | _
  · cases hr : s.remaining with
    | nil => simp [step, hA, hr] at h
    | cons c0 cs =>
      simp only [step, hA, hr, Bool.false_eq_true, if_false, Option.some.injEq] at h
      exact ⟨c0, cs, rfl, rfl, h.symm⟩
  · simp [step, hA] at h

theorem step_some_remaining_length {κ : Type} [DecidableEq κ] {scores : Nat → κ → ℚ}
    {m : Nat} {s s' : GreedyState κ} (h : step scores m s = some s') :
    s'.remaining.length + 1 = s.remaining.length := by
  rcases step_some_eq h with ⟨c0, cs, hr, _, rfl⟩
  have hmem : pickMax (colSum s.W m) c0 cs ∈ s.remaining := by
    rw [hr]
    exact pickMax_mem _ cs c0
  simpa using List.length_erase_add_one hmem

theorem step_some_selected_length {κ : Type} [DecidableEq κ] {scores : Nat → κ → ℚ}
    {m : Nat} {s s' : GreedyState κ} (h : step scores m s = some s') :
    s'.selected.length = s.selected.length + 1 := by
  rcases step_some_eq h with ⟨c0, cs, hr, _, rfl⟩
  simp

/-- Invariant of the greedy loop: remaining columns are distinct, selected
candidates are distinct, and no selected candidate is still a column of
the working matrix. -/
def SelInv {κ : Type} (s : GreedyState κ) : Prop :=
  s.remaining.Nodup ∧ s.selected.Nodup ∧ ∀ x ∈ s.selected, x ∉ s.remaining

theorem step_preserves_inv {κ : Type} [DecidableEq κ] {scores : Nat → κ → ℚ} {m : Nat}
    {s s' : GreedyState κ} (h : step scores m s = some s') (hinv : SelInv s) :
    SelInv s' := by
  rcases step_some_eq h with ⟨c0, cs, hr, _, rfl⟩
  obtain ⟨hrem, hsel, hdisj⟩ := hinv
  have hmem : pickMax (colSum s.W m) c0 cs ∈ s.remaining := by
    rw [hr]
    exact pickMax_mem _ cs c0
  have hnotsel : pickMax (colSum s.W m) c0 cs ∉ s.selected := fun hx =>
    hdisj _ hx hmem
  refine ⟨hrem.erase _, ?_, ?_⟩
  · rw [List.nodup_append]
    refine ⟨hsel, List.nodup_singleton _, ?_⟩
    intro a ha hb
    rw [List.mem_singleton] at hb
    subst hb
    exact hnotsel ha
  · intro x hx hxe
    rcases List.mem_append.1 hx with h1 | h1
    · exact hdisj x h1 (List.mem_of_mem_erase hxe)
    · rw [List.mem_singleton] at h1
      subst h1
      exact ((hrem.mem_erase_iff).1 hxe).1 rfl

theorem greedyRun_preserves_inv {κ : Type} [DecidableEq κ] (scores : Nat → κ → ℚ)
    (m : Nat) (n : Nat) (s : GreedyState κ) (hinv : SelInv s) :
    SelInv (greedyRun scores m n s) := by
  induction n generalizing s with
  | zero => exact hinv
  | succ n ih =>
    rw [greedyRun]
    cases hs : step scores m s with
    | none => exact hinv
    | some s' => exact ih s' (step_preserves_inv hs hinv)

theorem greedyRun_selected_length {κ : Type} [DecidableEq κ] (scores : Nat → κ → ℚ)
    (m : Nat) (n : Nat) (s : GreedyState κ) :
    (greedyRun scores m n s).selected.length ≤ s.selected.length + n := by
  induction n generalizing s with
  | zero => simp [greedyRun]
  | succ n ih =>
    cases hs : step scores m s with
    | none =>
      simp only [greedyRun, hs]
      omega
    | some s' =>
      simp only [greedyRun, hs]
      have h1 := ih s'
      have h2 := step_some_selected_length hs
      omega

theorem greedyRun_of_step_none {κ : Type} [DecidableEq κ] {scores : Nat → κ → ℚ}
    {m : Nat} {s : GreedyState κ} (h : step scores m s = none) (n : Nat) :
    greedyRun scores m n s = s := by
  cases n with
  | zero => rfl
  | succ n => simp [greedyRun, h]

theorem step_of_remaining_nil {κ : Type} [DecidableEq κ] (scores : Nat → κ → ℚ)
    (m : Nat) (s : GreedyState κ) (h : s.remaining = []) :
    step scores m s = none :=
  (step_none_iff scores m s).2 (Or.inr h)

theorem greedyRun_terminal {κ : Type} [DecidableEq κ] (scores : Nat → κ → ℚ) (m : Nat)
    (n : Nat) (s : GreedyState κ) (h : s.remaining.length ≤ n) :
    step scores m (greedyRun scores m n s) = none := by
  induction n generalizing s with
  | zero =>
    have : s.remaining = [] := List.length_eq_zero.1 (Nat.le_zero.1 h)
    exact step_of_remaining_nil scores m s this
  | succ n ih =>
    rw [greedyRun]
    cases hs : step scores m s with
    | none => exact hs
    | some s' =>
      have h1 := step_some_remaining_length hs
      exact ih s' (by omega)

theorem step_of_m_zero {κ : Type} [DecidableEq κ] (scores : Nat → κ → ℚ)
    (s : GreedyState κ) : step scores 0 s = none := by
  refine (step_none_iff scores 0 s).2 (Or.inl ?_)
  rw [allNonPos_iff]
  intro c _ qi hqi
  exact absurd hqi (Nat.not_lt_zero qi)

/-! ### Helper lemmas about the estimate cache -/

theorem cacheLookup_mem (q : Query) (v : ℚ) :
    ∀ cache : List (Query × ℚ), cacheLookup q cache = some v → (q, v) ∈ cache := by
  intro cache
  induction cache with
  | nil => intro h; simp [cacheLookup] at h
  | cons p rest ih =>
    obtain ⟨q', v'⟩ := p
    intro h
    rw [cacheLookup] at h
    by_cases hq : q' = q
    · rw [if_pos hq] at h
      obtain rfl := Option.some.inj h
      subst hq
      exact List.mem_cons_self _ _
    · rw [if_neg hq] at h
      exact List.mem_cons_of_mem _ (ih h)

theorem cacheLookup_isSome_cons (q : Query) (p : Query × ℚ) (cache : List (Query × ℚ))
    (h : (cacheLookup q cache).isSome = true) :
    (cacheLookup q (p :: cache)).isSome = true := by
  obtain ⟨q', v'⟩ := p
  rw [cacheLookup]
  by_cases hq : q' = q
  · rw [if_pos hq]
    rfl
  · rw [if_neg hq]
    exact h

theorem runEstimates_results (oracle : Query → ℚ) (qs : List Query) :
    ∀ cache : List (Query × ℚ), goodCache oracle cache →
      (runEstimates oracle cache qs).1 = qs.map oracle := by
  induction qs with
  | nil => intro cache _; rfl
  | cons q qs ih =>
    intro cache hg
    cases hl : cacheLookup q cache with
    | some v =>
      have hv : v = oracle q := hg (q, v) (cacheLookup_mem q v cache hl)
      simp [runEstimates, getEstimate, hl, hv, ih cache hg]
    | none =>
      have hg' : goodCache oracle ((q, oracle q) :: cache) := by
        intro p hp
        rcases List.mem_cons.1 hp with h1 | h1
        · rw [h1]
        · exact hg p h1
      simp [runEstimates, getEstimate, hl, ih _ hg']

theorem runEstimates_not_called (oracle : Query → ℚ) (q : Query) (qs : List Query) :
    ∀ cache : List (Query × ℚ), (cacheLookup q cache).isSome = true →
      q ∉ (runEstimates oracle cache qs).2 := by
  induction qs with
  | nil => intro cache _; simp [runEstimates]
  | cons q0 qs ih =>
    intro cache hq
    cases hl : cacheLookup q0 cache with
    | some v =>
      simp only [runEstimates, getEstimate, hl]
      simpa using ih cache hq
    | none =>
      have hne : q ≠ q0 := by
        intro h
        rw [h, hl] at hq
        simp at hq
      simp only [runEstimates, getEstimate, hl]
      simp only [if_true, List.mem_append, List.mem_singleton]
      intro hmem
      rcases hmem with h1 | h1
      · exact hne h1
      · exact ih _ (cacheLookup_isSome_cons q _ cache hq) h1

theorem runEstimates_calls_nodup (oracle : Query → ℚ) (qs : List Query) :
    ∀ cache : List (Query × ℚ), (runEstimates oracle cache qs).2.Nodup := by
  induction qs with
  | nil => intro cache; simp [runEstimates]
  | cons q qs ih =>
    intro cache
    cases hl : cacheLookup q cache with
    | some v =>
      simp only [runEstimates, getEstimate, hl]
      simpa using ih cache
    | none =>
      simp only [runEstimates, getEstimate, hl]
      refine List.Nodup.cons ?_ (ih _)
      have : (cacheLookup q ((q, oracle q) :: cache)).isSome = true := by
        rw [cacheLookup, if_pos rfl]
        rfl
      exact runEstimates_not_called oracle q qs _ this

/-! ### Helper lemmas about candidate generation and the workload -/

theorem fields_nodup (q : Query) : q.fields.Nodup :=
  List.nodup_dedup _

theorem mem_kpermutations (k : List String) (r : Nat) (l : List String) :
    k ∈ kpermutations r l ↔ k.length = r ∧ List.Subperm k l := by
  simp only [kpermutations, List.mem_flatMap, List.mem_sublistsLen, List.mem_permutations']
  constructor
  · rintro ⟨s, ⟨hsub, hlen⟩, hperm⟩
    exact ⟨hperm.length_eq.trans hlen, ⟨s, hperm.symm, hsub⟩⟩
  · rintro ⟨hlen, t, hpt, hsub⟩
    exact ⟨t, ⟨hsub, hpt.length_eq.trans hlen⟩, hpt.symm⟩

theorem mem_genCandidates (workload : List Query) (k : List String) :
    k ∈ genCandidates workload ↔
      ∃ q ∈ workload, ∃ i, 1 ≤ i ∧ i ≤ min q.fields.length MAX_INDEX_FIELDS ∧
        k.length = i ∧ List.Subperm k q.fields := by
  simp only [genCandidates, List.mem_dedup, List.mem_flatMap, List.mem_range,
    mem_kpermutations]
  constructor
  · rintro ⟨q, hq, i, hi, hlen, hsub⟩
    exact ⟨q, hq, i + 1, Nat.succ_le_succ (Nat.zero_le _), Nat.succ_le_of_lt hi, hlen, hsub⟩
  · rintro ⟨q, hq, i, h1, h2, hlen, hsub⟩
    obtain ⟨j, rfl⟩ : ∃ j, i = j + 1 := ⟨i - 1, (Nat.succ_pred_eq_of_pos h1).symm⟩
    exact ⟨q, hq, j, Nat.lt_of_succ_le h2, hlen, hsub⟩

theorem subperm_nodup {k l : List String} (h : List.Subperm k l) (hl : l.Nodup) : k.Nodup := by
  obtain ⟨t, hpt, hsub⟩ := h
  exact (hpt.nodup_iff).1 (hsub.nodup hl)

theorem exInit_eq : exInit = { remaining := [["a"], ["b"]], selected := [], W := scoresEx } := by
  have h : candsEx = [["a"], ["b"]] := by decide
  rw [exInit, h]

theorem scoresEx_0a : scoresEx 0 (["a"]) = 5 := by
  simp +decide [scoresEx, scoreFor, workloadEx, qA, estimateEx, cappedEst, filterBenefit,
    benefitCore, defaultCosts, IXSCAN_COST, FETCH_COST, SORT_COST, Query.index_intersect,
    intersectPreds, predKindOn, Query.is_covered, Query.can_use_sort, Query.is_subset,
    Query.fields]
  norm_num

theorem scoresEx_0b : scoresEx 0 (["b"]) = 0 := by
  simp +decide [scoresEx, scoreFor, workloadEx, qA, estimateEx, cappedEst, filterBenefit,
    benefitCore, defaultCosts, IXSCAN_COST, FETCH_COST, SORT_COST, Query.index_intersect,
    intersectPreds, predKindOn, Query.is_covered, Query.can_use_sort, Query.is_subset,
    Query.fields]

theorem scoresEx_1a : scoresEx 1 (["a"]) = 0 := by
  simp +decide [scoresEx, scoreFor, workloadEx, qA, qB, estimateEx, cappedEst, filterBenefit,
    benefitCore, defaultCosts, IXSCAN_COST, FETCH_COST, SORT_COST, Query.index_intersect,
    intersectPreds, predKindOn, Query.is_covered, Query.can_use_sort, Query.is_subset,
    Query.fields]

theorem scoresEx_1b : scoresEx 1 (["b"]) = -5 := by
  simp +decide [scoresEx, scoreFor, workloadEx, qA, qB, estimateEx, cappedEst, filterBenefit,
    benefitCore, defaultCosts, IXSCAN_COST, FETCH_COST, SORT_COST, Query.index_intersect,
    intersectPreds, predKindOn, Query.is_covered, Query.can_use_sort, Query.is_subset,
    Query.fields]
  norm_num

theorem colSum_ex_a : colSum scoresEx 2 (["a"]) = 5 := by
  have hr : List.range 2 = [0, 1] := rfl
  rw [colSum, hr]
  simp [scoresEx_0a, scoresEx_1a]

theorem colSum_ex_b : colSum scoresEx 2 (["b"]) = -5 := by
  have hr : List.range 2 = [0, 1] := rfl
  rw [colSum, hr]
  simp [scoresEx_0b, scoresEx_1b]

theorem allNonPos_exInit : allNonPos 2 exInit = false := by
  rw [Bool.eq_false_iff]
  intro hA
  have h := (allNonPos_iff 2 exInit).1 hA (["a"]) (by rw [exInit_eq]; simp) 0 (by norm_num)
  rw [show exInit.W 0 (["a"]) = scoresEx 0 (["a"]) from rfl, scoresEx_0a] at h
  norm_num at h

theorem pickMax_ex : pickMax (colSum scoresEx 2) (["a"]) ([["b"]]) = ["a"] := by
  rw [pickMax]
  simp [colSum_ex_a, colSum_ex_b]


theorem step_ex : step scoresEx 2 exInit =
    some { remaining := [["b"]], selected := [["a"]],
           W := newW scoresEx [["a"]] scoresEx } := by
  have hrem : exInit.remaining = ["a"] :: [["b"]] := by rw [exInit_eq]
  have hsel : exInit.selected = [] := by rw [exInit_eq]
  have hW : exInit.W = scoresEx := by rw [exInit_eq]
  rw [step, allNonPos_exInit]
  simp only [Bool.false_eq_true, if_false, hrem, hsel, hW, pickMax_ex,
    List.nil_append, List.erase_cons_head]

theorem exState1_eq : exState1 =
    { remaining := [["b"]], selected := [["a"]], W := newW scoresEx [["a"]] scoresEx } := by
  rw [exState1, step_ex]
  rfl

theorem existEx0 : existingScores scoresEx [["a"]] 0 = [5] := by
  simp [existingScores, scoresEx_0a]

theorem existEx1 : existingScores scoresEx [["a"]] 1 = [] := by
  simp [existingScores, scoresEx_1a]

theorem exW_1b : exState1.W 1 (["b"]) = -5 := by
  rw [exState1_eq]
  show newW scoresEx [["a"]] scoresEx 1 (["b"]) = -5
  rw [newW]
  simp only [existEx1]
  exact scoresEx_1b

theorem exW_0b : exState1.W 0 (["b"]) = 0 := by
  rw [exState1_eq]
  show newW scoresEx [["a"]] scoresEx 0 (["b"]) = 0
  rw [newW]
  simp only [existEx0]
  rw [scoresEx_0b]
  norm_num [listMax]

theorem step_some_W {κ : Type} [DecidableEq κ] {scores : Nat → κ → ℚ} {m : Nat}
    {s s' : GreedyState κ} (h : step scores m s = some s') :
    s'.W = newW scores s'.selected s.W ∧ ∃ c0 cs, s.remaining = c0 :: cs ∧
      s'.selected = s.selected ++ [pickMax (colSum s.W m) c0 cs] ∧
      s'.remaining = s.remaining.erase (pickMax (colSum s.W m) c0 cs) := by
  rcases step_some_eq h with ⟨c0, cs, hr, _, rfl⟩
  exact ⟨rfl, c0, cs, hr, rfl, rfl⟩

/-! ### The claims -/

/-- Claim C1 (amended): if `index_intersect(k)` has zero predicates and
`can_use_sort(k)` does not hold, the benefit scored for `(q, k)` is 0 for
all cost-model parameters, logarithm embeddings, oracles and total
cardinalities. (The unamended claim, without the `can_use_sort` proviso,
is refuted by `neutral_index_cex`: the code adds the sort-avoidance bonus
outside the zero-predicate branch.) -/
theorem neutral_index_amended {α : Type} [LinearOrderedField α] (cp : CostParams α)
    (log2 : α → α) (estimate : Query → α) (totalCount : α) (q : Query) (k : List String)
    (h0 : (q.index_intersect k).predicates = []) (hs : q.can_use_sort k = false) :
    scoreFor cp log2 estimate totalCount q k = 0 := by
  simp [scoreFor, h0, hs]

/-- Witness for C1 (amended) at a concrete zero-predicate, sort-free pair. -/
theorem neutral_index_amended_wit :
    scoreFor (defaultCosts ℚ) log2Triv estimateEx 10 qA (["b"]) = 0 :=
  neutral_index_amended (defaultCosts ℚ) log2Triv estimateEx 10 qA (["b"])
    (by decide) (by decide)

/-- Counterexample to claim C1 as stated: for the query filtering on `a`
and sorting by `b`, the candidate `(b,)` intersects to zero predicates,
yet with the concrete cost constants of `src/main.py`, the real base-2
logarithm, a whole-query estimate of 2 and total cardinality 10, the
scored benefit is `2 * log2(2) * SORT_COST = 20`, not 0. -/
theorem neutral_index_cex :
    (qASortB.index_intersect (["b"])).predicates = [] ∧
      scoreFor (defaultCosts ℝ) (Real.logb 2) (fun _ => (2 : ℝ)) 10 qASortB (["b"]) ≠ 0 := by
  refine ⟨by decide, ?_⟩
  have h0 : (qASortB.index_intersect (["b"])).predicates.length = 0 := by decide
  have hs : qASortB.can_use_sort (["b"]) = true := by decide
  rw [scoreFor]
  simp only [h0, if_true, hs, if_pos]
  have hmax : max (1 : ℝ) 2 = 2 := by norm_num
  rw [sortBonus, hmax, Real.logb_self_eq_one (by norm_num)]
  norm_num [defaultCosts, SORT_COST]

/-- Claim C2 (amended): after any update step of the greedy selector,
every entry of each row that the update actually rewrote — a row for
which some already-selected candidate has a non-zero original score — is
≥ 0; rows skipped by the update keep their previous values and may stay
negative, as `update_nonneg_cex` shows. -/
theorem update_nonneg_amended {κ : Type} [DecidableEq κ] (scores : Nat → κ → ℚ)
    (m : Nat) (s s' : GreedyState κ) (h : step scores m s = some s') (qi : Nat) (c : κ)
    (hne : existingScores scores s'.selected qi ≠ []) : 0 ≤ s'.W qi c := by
  have hW := (step_some_W h).1
  rw [hW]
  cases hE : existingScores scores s'.selected qi with
  | nil => exact absurd hE hne
  | cons e es =>
    have hfun : newW scores s'.selected s.W qi = fun x => max 0 (scores qi x - listMax e es) := by
      simp only [newW, hE]
    rw [hfun]
    exact le_max_left 0 _

/-- Witness for C2 (amended): in the example pipeline the updated row 0
is non-negative at the remaining column `(b,)`. -/
theorem update_nonneg_amended_wit : 0 ≤ exState1.W 0 (["b"]) :=
  update_nonneg_amended scoresEx 2 exInit exState1
    (by rw [step_ex, exState1_eq]) 0 (["b"])
    (by rw [exState1_eq]
        show existingScores scoresEx [["a"]] 0 ≠ []
        rw [existEx0]
        simp)

/-- Counterexample to claim C2 as stated: in the example pipeline (score
matrix produced by the scorer itself), the first greedy iteration selects
column `(a,)`, whose original score for row 1 is 0, so row 1 is left
unchanged by the update and its entry at the remaining column `(b,)` is
still `-5 < 0` after the update step. -/
theorem update_nonneg_cex :
    (step scoresEx 2 exInit).isSome = true ∧
      ["b"] ∈ exState1.remaining ∧ exState1.W 1 (["b"]) < 0 := by
  refine ⟨by rw [step_ex]; rfl, ?_, ?_⟩
  · rw [exState1_eq]
    simp
  · rw [exW_1b]
    norm_num

/-- Claim C3: in each greedy update step, for every query row `qi`: if no
selected candidate has a non-zero original score for the row, the row of
the working matrix is unchanged; otherwise, writing `best` for the
maximum of those non-zero original scores, every column `c` of the row is
set to `max 0 (scores qi c - best)`. -/
theorem greedy_update_step_spec {κ : Type} [DecidableEq κ] (scores : Nat → κ → ℚ)
    (m : Nat) (s s' : GreedyState κ) (h : step scores m s = some s') (qi : Nat) :
    (existingScores scores s'.selected qi = [] → s'.W qi = s.W qi) ∧
    ∀ e es, existingScores scores s'.selected qi = e :: es →
      (listMax e es ∈ e :: es ∧ ∀ x ∈ e :: es, x ≤ listMax e es) ∧
      ∀ c, s'.W qi c = max 0 (scores qi c - listMax e es) := by
  have hW := (step_some_W h).1
  constructor
  · intro hE
    rw [hW]
    simp only [newW, hE]
  · intro e es hE
    refine ⟨⟨listMax_mem e es, le_listMax e es⟩, fun c => ?_⟩
    rw [hW]
    simp only [newW, hE]

/-- Witness for C3 at the example pipeline: the updated row 0 at the
remaining column `(b,)` equals `max 0 (scores[0][(b,)] - best)` with
`best = 5` the score of the selected candidate `(a,)`. -/
theorem greedy_update_step_spec_wit :
    exState1.W 0 (["b"]) = max 0 (scoresEx 0 (["b"]) - listMax 5 []) :=
  ((greedy_update_step_spec scoresEx 2 exInit exState1
      (by rw [step_ex, exState1_eq]) 0).2 5 []
      (by rw [exState1_eq]
          exact existEx0)).2 (["b"])

/-- Claim C4: at each iteration the greedy selector terminates exactly
when no positive entry remains over the remaining columns (equivalently,
the `allNonPos` test holds, i.e. every remaining entry is ≤ 0) or no
column remains; otherwise it selects a remaining column whose sum over
the working matrix is maximal, appends it to the output and deletes it
from the working matrix. -/
theorem greedy_selection_step_spec {κ : Type} [DecidableEq κ] (scores : Nat → κ → ℚ)
    (m : Nat) (s : GreedyState κ) :
    (allNonPos m s = true ↔ ∀ c ∈ s.remaining, ∀ qi < m, s.W qi c ≤ 0) ∧
    (step scores m s = none ↔ allNonPos m s = true ∨ s.remaining = []) ∧
    ∀ s', step scores m s = some s' → ∀ c0 cs, s.remaining = c0 :: cs →
      pickMax (colSum s.W m) c0 cs ∈ s.remaining ∧
      (∀ c ∈ s.remaining,
        colSum s.W m c ≤ colSum s.W m (pickMax (colSum s.W m) c0 cs)) ∧
      s'.selected = s.selected ++ [pickMax (colSum s.W m) c0 cs] ∧
      s'.remaining = s.remaining.erase (pickMax (colSum s.W m) c0 cs) := by
  refine ⟨allNonPos_iff m s, step_none_iff scores m s, ?_⟩
  intro s' h c0 cs hr
  obtain ⟨_, c0', cs', hr', hsel, hrem⟩ := step_some_W h
  have h2 : c0 :: cs = c0' :: cs' := hr.symm.trans hr'
  injection h2 with h3 h4
  subst h3
  subst h4
  refine ⟨?_, ?_, hsel, hrem⟩
  · rw [hr]
    exact pickMax_mem _ cs c0
  · intro c hc
    rw [hr] at hc
    exact le_pickMax _ cs c0 c hc

/-- Witness for C4 at the example pipeline: the first iteration appends
the remaining column of maximal sum to the selection. -/
theorem greedy_selection_step_spec_wit :
    exState1.selected = exInit.selected ++ [pickMax (colSum scoresEx 2) (["a"]) ([["b"]])] ∧
      pickMax (colSum scoresEx 2) (["a"]) ([["b"]]) ∈ exInit.remaining := by
  have h := (greedy_selection_step_spec scoresEx 2 exInit).2.2 exState1
    (by rw [step_ex, exState1_eq]) (["a"]) ([["b"]]) (by rw [exInit_eq])
  exact ⟨h.2.2.1, h.1⟩

/-- Claim C5: the greedy selector terminates in at most `|candidates|`
iterations (after `|candidates|` iterations its state is terminal and the
output has at most `|candidates|` entries), never selects the same
candidate twice (for distinct candidate columns the output has no
duplicates), and on an empty workload or empty candidate set it yields
the empty recommendation list at once. -/
theorem greedy_termination_spec {κ : Type} [DecidableEq κ] (scores : Nat → κ → ℚ)
    (m : Nat) (cands : List κ) :
    (greedy scores m cands).length ≤ cands.length ∧
    (cands.Nodup → (greedy scores m cands).Nodup) ∧
    step scores m (greedyRun scores m cands.length
      { remaining := cands, selected := [], W := scores }) = none ∧
    (cands = [] → greedy scores m cands = []) ∧
    (m = 0 → greedy scores m cands = []) := by
  refine ⟨?_, ?_, ?_, ?_, ?_⟩
  · have h := greedyRun_selected_length scores m cands.length
      { remaining := cands, selected := [], W := scores }
    simpa [greedy] using h
  · intro hnd
    have hinv : SelInv { remaining := cands, selected := [], W := scores } :=
      ⟨hnd, List.nodup_nil, by intro x hx; simp at hx⟩
    exact (greedyRun_preserves_inv scores m cands.length _ hinv).2.1
  · exact greedyRun_terminal scores m cands.length _ (le_refl _)
  · intro h
    subst h
    rfl
  · intro h
    subst h
    rw [greedy, greedyRun_of_step_none (step_of_m_zero scores _) _]

/-- Witness for C5: on the example pipeline the recommendation list has
no duplicates, and with an empty workload or an empty candidate set the
recommendation list is empty. -/
theorem greedy_termination_spec_wit :
    (greedy scoresEx 2 candsEx).Nodup ∧ greedy scoresEx 0 candsEx = [] ∧
      greedy scoresEx 2 ([] : List (List String)) = [] :=
  ⟨(greedy_termination_spec scoresEx 2 candsEx).2.1 (by decide),
   (greedy_termination_spec scoresEx 0 candsEx).2.2.2.2 rfl,
   (greedy_termination_spec scoresEx 2 []).2.2.2.1 rfl⟩

/-- Claim C6: for a query with limit `L`, when `is_subset(k)` holds,
`index_intersect(k)` is non-empty and the raw estimate exceeds `L`, the
estimate used by the benefit computation equals `L`; when the limit is
absent or `is_subset(k)` fails, the raw estimate is used uncapped. -/
theorem limit_capping_spec {α : Type} [LinearOrderedField α] (q : Query)
    (k : List String) (est : α) :
    ((q.index_intersect k).predicates ≠ [] → ∀ L : Nat, q.limit = some L →
        q.is_subset k = true → (L : α) < est → cappedEst q k est = (L : α)) ∧
    (q.limit = none → cappedEst q k est = est) ∧
    (q.is_subset k = false → cappedEst q k est = est) := by
  refine ⟨fun _ L hL hsub hlt => ?_, fun hn => ?_, fun hsub => ?_⟩
  · simp [cappedEst, hL, hsub, min_eq_left (le_of_lt hlt)]
  · simp [cappedEst, hn]
  · cases hL : q.limit with
    | none => simp [cappedEst, hL]
    | some l => simp [cappedEst, hL, hsub]

/-- Witness for C6: the query on `a` with limit 3 and candidate `(a,)`
caps a raw estimate of 5 at 3; a query without a limit keeps its raw
estimate. -/
theorem limit_capping_spec_wit :
    cappedEst qALim (["a"]) (5 : ℚ) = ((3 : Nat) : ℚ) ∧ cappedEst qA (["b"]) (5 : ℚ) = 5 :=
  ⟨(limit_capping_spec qALim (["a"]) 5).1 (by decide) 3 rfl (by decide) (by norm_num),
   (limit_capping_spec qA (["b"]) 5).2.1 rfl⟩

/-- Claim C7: for a fixed estimate and total cardinality, the benefit
`total * 1 - est * cost` computed with the covered unit cost
(`is_covered` true, cost `IXSCAN_COST`) is strictly greater than with the
uncovered unit cost (`FETCH_COST`), whenever `IXSCAN_COST < FETCH_COST`
and the estimate is positive. -/
theorem covered_cost_spec {α : Type} [LinearOrderedField α] (cp : CostParams α)
    (totalCount est : α) (hc : cp.ixscanCost < cp.fetchCost) (hest : 0 < est) :
    filterBenefit cp false totalCount est < filterBenefit cp true totalCount est := by
  simp [filterBenefit, benefitCore]
  have h := mul_lt_mul_of_pos_left hc hest
  linarith

/-- Witness for C7 at the concrete cost constants of `src/main.py`. -/
theorem covered_cost_spec_wit :
    filterBenefit (defaultCosts ℚ) false 10 1 < filterBenefit (defaultCosts ℚ) true 10 1 :=
  covered_cost_spec (defaultCosts ℚ) 10 1
    (by norm_num [defaultCosts, IXSCAN_COST, FETCH_COST]) (by norm_num)

/-- Claim C8: the candidate set is exactly the deduplicated union, over
workload queries `q` and sizes `i` with `1 ≤ i ≤ min(|q.fields|, 3)`, of
the ordered permutations of `i` of `q`'s predicate fields (the length-`i`
lists drawing distinct elements of `q.fields`); consequently every
candidate is non-empty, of length at most `MAX_INDEX_FIELDS = 3`, and has
no repeated field. -/
theorem candidate_gen_spec (workload : List Query) (k : List String) :
    (k ∈ genCandidates workload ↔ ∃ q ∈ workload, ∃ i, 1 ≤ i ∧
        i ≤ min q.fields.length MAX_INDEX_FIELDS ∧ k.length = i ∧
        List.Subperm k q.fields) ∧
    (k ∈ genCandidates workload → k ≠ [] ∧ k.length ≤ MAX_INDEX_FIELDS ∧ k.Nodup) := by
  refine ⟨mem_genCandidates workload k, fun hk => ?_⟩
  rcases (mem_genCandidates workload k).1 hk with ⟨q, hq, i, h1, h2, hlen, hsub⟩
  refine ⟨?_, ?_, subperm_nodup hsub (fields_nodup q)⟩
  · intro h
    rw [h] at hlen
    simp at hlen
    omega
  · have h3 := min_le_right q.fields.length MAX_INDEX_FIELDS
    omega

/-- Witness for C8: the two-field query generates the candidate `(b, a)`,
which is non-empty, within the length bound and duplicate-free. -/
theorem candidate_gen_spec_wit :
    (["b", "a"] : List String) ≠ [] ∧
      (["b", "a"] : List String).length ≤ MAX_INDEX_FIELDS ∧
      (["b", "a"] : List String).Nodup :=
  (candidate_gen_spec [qAB] (["b", "a"])).2 (by decide)

/-- Claim C9: during one scoring pass issuing any sequence of estimate
requests against an initially empty cache, every request is answered with
the oracle's value for that query (repeats are served from the cache, and
the cached value is what the oracle returned on the first call), and the
oracle is invoked at most once per distinct query value (the invocation
list has no duplicates). -/
theorem estimate_cache_spec (oracle : Query → ℚ) (qs : List Query) :
    (runEstimates oracle [] qs).1 = qs.map oracle ∧
      (runEstimates oracle [] qs).2.Nodup :=
  ⟨runEstimates_results oracle qs []
      (by intro p hp; simp at hp),
   runEstimates_calls_nodup oracle qs []⟩

/-- Claim C10: the workload builder appends exactly the queries of the
records whose construction succeeds, in input order (it equals
`filterMap` of the per-record parser), skipping failing records, and its
length is the number of records whose query construction succeeded. -/
theorem workload_build_spec (docs : List ProfileDoc) :
    buildWorkload docs = docs.filterMap parseDoc ∧
      (buildWorkload docs).length = docs.countP fun d => (parseDoc d).isSome := by
  induction docs with
  | nil => simp [buildWorkload]
  | cons d ds ih =>
    obtain ⟨ih1, ih2⟩ := ih
    cases hd : parseDoc d with
    | some q =>
      constructor
      · simp only [buildWorkload, hd, List.filterMap_cons]
        rw [ih1]
      · simp only [buildWorkload, hd, List.countP_cons]
        simp [hd, ih2]
    | none =>
      constructor
      · simp only [buildWorkload, hd, List.filterMap_cons]
        exact ih1
      · simp only [buildWorkload, hd, List.countP_cons]
        simp [hd, ih2]

end Mindexer
